import Mathlib

/-!
Shallow embedding of `src/magic_dictionary_builder.py` (class `DictionaryBuilder`).

Strings are modelled as `List Char`.  Python sets are modelled as
deduplicated lists; every property stated below about a "set" is a
membership / emptiness / equality property that does not depend on the
order chosen by `List.dedup`.

The path component of a URL is computed the way CPython's
`urllib.parse.urlparse` computes `parsed.path` for URLs that begin with
`http://` or `https://`:
  - the characters TAB, CR, LF are removed from the URL before parsing;
  - the netloc is everything after the `//` up to the first of `/ ? #`;
  - a netloc containing `[` without `]` (or vice versa) raises
    `ValueError` ("Invalid IPv6 URL"), modelled as `none`;
  - the path stops at the first `?` or `#` after the netloc;
  - `urlparse` additionally splits parameters: the last path segment is
    truncated at its first `;`.
The NFKC-normalisation check on the netloc (which can only reject netlocs
containing certain non-ASCII characters) is not modelled; it does not
affect the path of any URL considered in the claims.
-/

namespace MagicDict

/-- Strings are lists of characters; Python `str.lower` agrees with
`Char.toLower` on every character whose lowering can be a character of an
entry of the extension table (those are all ASCII). -/
abbrev Str := List Char

/-- Extension Filter Table: `self.filtered_extensions` from
`DictionaryBuilder.__init__` (src lines 17-22). -/
def filtered_extensions : List Str :=
  ["js".toList, "gif".toList, "jpg".toList, "jpeg".toList, "png".toList,
   "css".toList, "ttf".toList, "woff".toList, "woff2".toList,
   "svg".toList, "pdf".toList, "ico".toList, "webp".toList, "mp4".toList,
   "mp3".toList, "avi".toList, "mov".toList, "zip".toList,
   "rar".toList, "tar".toList, "gz".toList, "bz2".toList, "exe".toList,
   "dmg".toList, "iso".toList, "doc".toList, "docx".toList,
   "xls".toList, "xlsx".toList, "ppt".toList, "pptx".toList, "eot".toList,
   "swf".toList]

/-- Python `s.split(sep)` for a one-character separator: splits `s` at every
occurrence of `sep`, keeping empty pieces, so the result is always
non-empty. -/
def splitOnChar (sep : Char) : Str → List Str
  | [] => [[]]
  | c :: cs =>
    if c = sep then [] :: splitOnChar sep cs
    else
      match splitOnChar sep cs with
      | [] => [[c]]
      | p :: ps => (c :: p) :: ps

/-- Inverse of `splitOnChar`: interleaves the separator between the pieces. -/
def joinChar (sep : Char) : List Str → Str
  | [] => []
  | [s] => s
  | s :: ss => s ++ sep :: joinChar sep ss

/-- CPython `urlsplit` removes TAB, CR and LF from the URL before parsing
(`_UNSAFE_URL_BYTES_TO_REMOVE`). -/
def scrubUrl (s : Str) : Str :=
  s.filter fun c => !(c == '\t' || c == '\r' || c == '\n')

/-- Characters that terminate the netloc in `urlsplit` (`_splitnetloc`). -/
def netlocEnd (c : Char) : Bool := c == '/' || c == '?' || c == '#'

/-- Parameter split of `urlparse` on the last path segment: truncate at the
first `;`. -/
def splitParamsSeg (seg : Str) : Str := seg.takeWhile fun c => !(c == ';')

/-- The `_splitparams` step of `urlparse`: when the path contains a `;`,
the last `/`-segment is truncated at its first `;`; a `;` occurring before
the last `/` leaves the path unchanged. -/
def dropParams (path : Str) : Str :=
  if ';' ∈ path then
    let parts := splitOnChar '/' path
    joinChar '/' (parts.dropLast ++ [splitParamsSeg (parts.getLastD [])])
  else path

/-- Path component computed by `urlparse` for the part of the URL after
`http://` or `https://`; `none` models the `ValueError` raised for a
netloc with unbalanced square brackets ("Invalid IPv6 URL"). -/
def urlparsePath (rest : Str) : Option Str :=
  let rest := scrubUrl rest
  let netloc := rest.takeWhile fun c => !netlocEnd c
  let after := rest.dropWhile fun c => !netlocEnd c
  if ('[' ∈ netloc ∧ ']' ∉ netloc) ∨ (']' ∈ netloc ∧ '[' ∉ netloc) then none
  else
    let beforeFrag := after.takeWhile fun c => !(c == '#')
    let path := beforeFrag.takeWhile fun c => !(c == '?')
    some (dropParams path)

/-- The guard `url.startswith(('http://', 'https://'))` of src line 114;
on success returns the URL with the scheme and `//` removed (which is
where `urlsplit` starts looking for the netloc).  An empty URL fails the
guard, which also covers the `not url` half of the condition. -/
def stripScheme (url : Str) : Option Str :=
  if "http://".toList.isPrefixOf url then some (url.drop 7)
  else if "https://".toList.isPrefixOf url then some (url.drop 8)
  else none

/-- Composition of the scheme guard and path parsing, for stating claims
about "the parsed path component" of a URL. -/
def parsedPath (url : Str) : Option Str :=
  match stripScheme url with
  | none => none
  | some rest => urlparsePath rest

/-- Python `s.lower()` (agrees with it on all inputs relevant to table
lookup, see the module comment). -/
def strLower (s : Str) : Str := s.map Char.toLower

/-- The lower-cased substring after the final `.` of a segment:
`part.split('.')[-1].lower()` (src line 133). -/
def segExt (part : Str) : Str :=
  strLower ((splitOnChar '.' part).getLastD [])

/-- Keep/drop decision of src lines 131-138: a segment containing a `.` is
kept only when its extension is not in the table; a segment without a `.`
is always kept. -/
def segKeep (part : Str) : Bool :=
  if '.' ∈ part then decide (segExt part ∉ filtered_extensions) else true

/-- The non-empty components of the path:
`[part for part in path.split('/') if part]` (src line 125). -/
def pathParts (path : Str) : List Str :=
  (splitOnChar '/' path).filter fun part => !part.isEmpty

/-- The segments one URL contributes to the `paths` set of
`extract_paths` (src lines 113-148): nothing for URLs failing the scheme
guard, for URLs whose parsing raises, and for an empty or root path;
otherwise the components passing `segKeep` (loop at lines 127-138)
together with every component except the last (loop at lines 140-144). -/
def urlSegments (url : Str) : List Str :=
  match stripScheme url with
  | none => []
  | some rest =>
    match urlparsePath rest with
    | none => []
    | some path =>
      if path = [] ∨ path = "/".toList then []
      else (pathParts path).filter segKeep ++ (pathParts path).dropLast

/-- `DictionaryBuilder.extract_paths` (src lines 109-150): the set of all
segments contributed by the input URLs, as a deduplicated list. -/
def extract_paths (urls : List Str) : List Str :=
  ((urls.map urlSegments).flatten).dedup

/-- The URL Merger, `list(set(gau_urls + urlfinder_urls))` (src line 204). -/
def merge_urls (a b : List Str) : List Str := (a ++ b).dedup

/-- Python string comparison `a <= b`: lexicographic by code point, a
proper prefix preceding its extensions. -/
def strLeB : Str → Str → Bool
  | [], _ => true
  | _ :: _, [] => false
  | a :: as, b :: bs => if a < b then true else if b < a then false else strLeB as bs

/-- The ordering used by Python `sorted` on strings, as a relation. -/
def strLe (a b : Str) : Prop := strLeB a b = true

instance : DecidableRel strLe := fun a b =>
  inferInstanceAs (Decidable (strLeB a b = true))

/-- `sorted(set(words))` of `DictionaryBuilder.save_dictionary`
(src line 155): the deduplicated words in ascending order. -/
def save_dictionary (words : List Str) : List Str :=
  List.insertionSort strLe words.dedup

/-- File content produced by the write loop of `save_dictionary`
(src lines 157-159): each word followed by a newline. -/
def writeLines (ws : List Str) : Str :=
  (ws.map fun w => w ++ ['\n']).flatten

/-- Modelled from the spec: re-reading the Dictionary file and splitting
it by line (the program itself never reads the file back; the spec's
round-trip property needs this read-back operation).  Splitting a
newline-terminated (or empty) text into its lines. -/
def readLines (s : Str) : List Str := (splitOnChar '\n' s).dropLast

/-- The filtered-segment set for a given segment set, as used for the
Segment Filter idempotence property (keep/drop loop of src lines
131-138). -/
def filterSegs (l : List Str) : List Str := l.filter segKeep

/-- `DictionaryBuilder.build_dictionary` (src lines 169-240), restricted
to the core pipeline: the two discovery results are parameters, and the
success/failure of the final file write (the `try`/`except` of
`save_dictionary`, src lines 154-167) is the parameter `writeOk`.
Returns the reported verdict and the file content written (`none` when
nothing is written). -/
def build_dictionary (gau_urls urlfinder_urls : List Str) (writeOk : Bool) :
    Bool × Option Str :=
  let all_urls := merge_urls gau_urls urlfinder_urls
  if all_urls = [] then (false, none)
  else
    let paths := extract_paths all_urls
    if paths = [] then (false, none)
    else if writeOk then (true, some (writeLines (save_dictionary paths)))
    else (false, none)

/-! Basic facts about `splitOnChar` and `joinChar`. -/

theorem splitOnChar_ne_nil (sep : Char) (s : Str) : splitOnChar sep s ≠ [] := by
  cases s with
  | nil => simp [splitOnChar]
  | cons c cs =>
    simp only [splitOnChar]
    split
    · simp
    · split <;> simp

theorem not_mem_of_mem_splitOnChar {sep : Char} {s p : Str}
    (hp : p ∈ splitOnChar sep s) : sep ∉ p := by
  induction s generalizing p with
  | nil =>
    simp only [splitOnChar, List.mem_singleton] at hp
    subst hp; simp
  | cons c cs ih =>
    simp only [splitOnChar] at hp
    by_cases hc : c = sep
    · rw [if_pos hc] at hp
      rcases List.mem_cons.mp hp with h | h
      · subst h; simp
      · exact ih h
    · rw [if_neg hc] at hp
      cases hsplit : splitOnChar sep cs with
      | nil => exact absurd hsplit (splitOnChar_ne_nil sep cs)
      | cons q qs =>
        rw [hsplit] at hp
        rcases List.mem_cons.mp hp with h | h
        · subst h
          intro hmem
          rcases List.mem_cons.mp hmem with h1 | h1
          · exact hc h1.symm
          · exact ih (by rw [hsplit]; exact List.mem_cons_self q qs) h1
        · exact ih (by rw [hsplit]; exact List.mem_cons_of_mem _ h)

theorem mem_of_mem_splitOnChar {sep : Char} {s p : Str} {c : Char}
    (hp : p ∈ splitOnChar sep s) (hc : c ∈ p) : c ∈ s := by
  induction s generalizing p with
  | nil =>
    simp only [splitOnChar, List.mem_singleton] at hp
    subst hp; simp at hc
  | cons a as ih =>
    simp only [splitOnChar] at hp
    by_cases ha : a = sep
    · rw [if_pos ha] at hp
      rcases List.mem_cons.mp hp with h | h
      · subst h; simp at hc
      · exact List.mem_cons_of_mem _ (ih h hc)
    · rw [if_neg ha] at hp
      cases hsplit : splitOnChar sep as with
      | nil => exact absurd hsplit (splitOnChar_ne_nil sep as)
      | cons q qs =>
        rw [hsplit] at hp
        rcases List.mem_cons.mp hp with h | h
        · subst h
          rcases List.mem_cons.mp hc with h1 | h1
          · exact h1 ▸ List.mem_cons_self a as
          · exact List.mem_cons_of_mem _
              (ih (by rw [hsplit]; exact List.mem_cons_self q qs) h1)
        · exact List.mem_cons_of_mem _
            (ih (by rw [hsplit]; exact List.mem_cons_of_mem _ h) hc)

theorem splitOnChar_append {sep : Char} (w t : Str) (hw : sep ∉ w) :
    splitOnChar sep (w ++ sep :: t) = w :: splitOnChar sep t := by
  induction w with
  | nil => simp [splitOnChar]
  | cons c w ih =>
    have hc : ¬ c = sep := fun h => hw (h ▸ List.mem_cons_self c w)
    have hw' : sep ∉ w := fun h => hw (List.mem_cons_of_mem _ h)
    rw [List.cons_append]
    simp only [splitOnChar, if_neg hc, ih hw']

theorem mem_joinChar {sep : Char} {L : List Str} {c : Char}
    (h : c ∈ joinChar sep L) : c = sep ∨ ∃ s, s ∈ L ∧ c ∈ s := by
  induction L with
  | nil => simp [joinChar] at h
  | cons s ss ih =>
    cases ss with
    | nil =>
      exact Or.inr ⟨s, List.mem_cons_self s [], by simpa [joinChar] using h⟩
    | cons t ts =>
      simp only [joinChar] at h
      rcases List.mem_append.mp h with h1 | h1
      · exact Or.inr ⟨s, List.mem_cons_self _ _, h1⟩
      · rcases List.mem_cons.mp h1 with h2 | h2
        · exact Or.inl h2
        · rcases ih h2 with h3 | ⟨x, hx, hcx⟩
          · exact Or.inl h3
          · exact Or.inr ⟨x, List.mem_cons_of_mem _ hx, hcx⟩

theorem readLines_writeLines (ws : List Str)
    (h : ∀ w ∈ ws, ('\n' : Char) ∉ w) : readLines (writeLines ws) = ws := by
  induction ws with
  | nil => rfl
  | cons w ws ih =>
    have hw : ('\n' : Char) ∉ w := h w (List.mem_cons_self w ws)
    have hws : ∀ x ∈ ws, ('\n' : Char) ∉ x :=
      fun x hx => h x (List.mem_cons_of_mem _ hx)
    have hstep : writeLines (w :: ws) = w ++ '\n' :: writeLines ws := by
      simp [writeLines]
    rw [readLines, hstep, splitOnChar_append _ _ hw]
    cases hsplit : splitOnChar '\n' (writeLines ws) with
    | nil => exact absurd hsplit (splitOnChar_ne_nil _ _)
    | cons q qs =>
      have htail : (q :: qs).dropLast = ws := by
        rw [← hsplit]
        exact ih hws
      simp [List.dropLast, htail]

/-! Characterisation of `urlSegments` and `extract_paths`. -/

theorem mem_extract_paths {urls : List Str} {s : Str} :
    s ∈ extract_paths urls ↔ ∃ url, url ∈ urls ∧ s ∈ urlSegments url := by
  simp [extract_paths, List.mem_dedup, List.mem_flatten]

theorem urlSegments_eq_nil_of_stripScheme_none {url : Str}
    (h : stripScheme url = none) : urlSegments url = [] := by
  simp [urlSegments, h]

theorem urlSegments_eq_nil_of_parse_none {url r : Str}
    (hr : stripScheme url = some r) (hp : urlparsePath r = none) :
    urlSegments url = [] := by
  simp [urlSegments, hr, hp]

theorem urlSegments_eq_parts {url r p : Str}
    (hr : stripScheme url = some r) (hp : urlparsePath r = some p) :
    urlSegments url = (pathParts p).filter segKeep ++ (pathParts p).dropLast := by
  simp only [urlSegments, hr, hp]
  split
  · rename_i hpath
    rcases hpath with h | h <;> subst h <;> rfl
  · rfl

theorem urlSegments_eq_nil_of_path_trivial {url r p : Str}
    (hr : stripScheme url = some r) (hp : urlparsePath r = some p)
    (hpath : p = [] ∨ p = "/".toList) : urlSegments url = [] := by
  simp only [urlSegments, hr, hp]
  rw [if_pos hpath]

theorem mem_parts_of_mem_urlSegments {url s : Str} (h : s ∈ urlSegments url) :
    ∃ r p, stripScheme url = some r ∧ urlparsePath r = some p ∧
      s ∈ pathParts p := by
  cases hr : stripScheme url with
  | none => rw [urlSegments_eq_nil_of_stripScheme_none hr] at h; simp at h
  | some r =>
    cases hp : urlparsePath r with
    | none => rw [urlSegments_eq_nil_of_parse_none hr hp] at h; simp at h
    | some p =>
      refine ⟨r, p, rfl, hp, ?_⟩
      rw [urlSegments_eq_parts hr hp] at h
      rcases List.mem_append.mp h with h | h
      · exact List.mem_of_mem_filter h
      · exact List.dropLast_subset _ h

theorem mem_pathParts_props {p s : Str} (h : s ∈ pathParts p) :
    s ≠ [] ∧ ('/' : Char) ∉ s := by
  rcases List.mem_filter.mp h with ⟨hmem, hne⟩
  refine ⟨?_, not_mem_of_mem_splitOnChar hmem⟩
  cases s with
  | nil => simp [List.isEmpty] at hne
  | cons a as => simp

/-! Segments never contain a newline: `urlsplit` removes TAB, CR and LF
from the URL before any other processing. -/

theorem nl_not_mem_scrubUrl (s : Str) : ('\n' : Char) ∉ scrubUrl s := by
  intro h
  have := (List.mem_filter.mp h).2
  simp at this

theorem not_mem_dropParams {c : Char} {p : Str} (hc : c ≠ '/') (h : c ∉ p) :
    c ∉ dropParams p := by
  unfold dropParams
  split
  · intro hmem
    rcases mem_joinChar hmem with h1 | ⟨s, hs, hcs⟩
    · exact hc h1
    · rcases List.mem_append.mp hs with hs | hs
      · exact h (mem_of_mem_splitOnChar (List.dropLast_subset _ hs) hcs)
      · have hseq : s = splitParamsSeg ((splitOnChar '/' p).getLastD []) := by
          simpa using hs
        subst hseq
        have hcl : c ∈ (splitOnChar '/' p).getLastD [] :=
          (List.takeWhile_sublist _).subset hcs
        have hlast : (splitOnChar '/' p).getLastD [] ∈ [] :: splitOnChar '/' p :=
          List.getLastD_mem_cons _ _
        rcases List.mem_cons.mp hlast with h2 | h2
        · rw [h2] at hcl; simp at hcl
        · exact h (mem_of_mem_splitOnChar h2 hcl)
  · exact h

theorem nl_not_mem_urlparsePath {rest p : Str} (h : urlparsePath rest = some p) :
    ('\n' : Char) ∉ p := by
  simp only [urlparsePath] at h
  split at h
  · exact absurd h (by simp)
  · have hp : p = dropParams ((((scrubUrl rest).dropWhile fun c => !netlocEnd c).takeWhile
        fun c => !(c == '#')).takeWhile fun c => !(c == '?')) :=
      (Option.some.inj h).symm
    rw [hp]
    refine not_mem_dropParams (by decide) fun hmem => ?_
    have h1 := (List.takeWhile_sublist _).subset hmem
    have h2 := (List.takeWhile_sublist _).subset h1
    have h3 := (List.dropWhile_sublist _).subset h2
    exact nl_not_mem_scrubUrl rest h3

theorem nl_not_mem_of_mem_urlSegments {url s : Str} (h : s ∈ urlSegments url) :
    ('\n' : Char) ∉ s := by
  obtain ⟨r, p, hr, hp, hs⟩ := mem_parts_of_mem_urlSegments h
  intro hc
  exact nl_not_mem_urlparsePath hp
    (mem_of_mem_splitOnChar (List.mem_filter.mp hs).1 hc)

/-! The Python string order is total, transitive and antisymmetric. -/

theorem strLeB_total : ∀ a b : Str, strLeB a b = true ∨ strLeB b a = true
  | [], _ => Or.inl rfl
  | _ :: _, [] => Or.inr rfl
  | a :: as, b :: bs => by
    rcases lt_trichotomy a b with h | h | h
    · exact Or.inl (by simp [strLeB, h])
    · subst h
      rcases strLeB_total as bs with h1 | h1
      · exact Or.inl (by simp [strLeB, h1])
      · exact Or.inr (by simp [strLeB, h1])
    · exact Or.inr (by simp [strLeB, h])

theorem strLeB_trans : ∀ a b c : Str, strLeB a b = true → strLeB b c = true →
    strLeB a c = true
  | [], _, _, _, _ => rfl
  | _ :: _, [], _, h1, _ => by simp [strLeB] at h1
  | _ :: _, _ :: _, [], _, h2 => by simp [strLeB] at h2
  | a :: as, b :: bs, c :: cs, h1, h2 => by
    rcases lt_trichotomy a b with hab | hab | hab
    · rcases lt_trichotomy b c with hbc | hbc | hbc
      · simp [strLeB, lt_trans hab hbc]
      · subst hbc; simp [strLeB, hab]
      · simp [strLeB, hbc, asymm hbc] at h2
    · subst hab
      rcases lt_trichotomy a c with hac | hac | hac
      · simp [strLeB, hac]
      · subst hac
        simp only [strLeB, lt_self_iff_false, if_false] at h1 h2 ⊢
        exact strLeB_trans as bs cs h1 h2
      · simp [strLeB, hac, asymm hac] at h2
    · simp [strLeB, hab, asymm hab] at h1

theorem strLeB_antisymm : ∀ a b : Str, strLeB a b = true → strLeB b a = true →
    a = b
  | [], [], _, _ => rfl
  | [], _ :: _, _, h2 => by simp [strLeB] at h2
  | _ :: _, [], h1, _ => by simp [strLeB] at h1
  | a :: as, b :: bs, h1, h2 => by
    rcases lt_trichotomy a b with hab | hab | hab
    · simp [strLeB, hab, asymm hab] at h2
    · subst hab
      simp only [strLeB, lt_self_iff_false, if_false] at h1 h2
      rw [strLeB_antisymm as bs h1 h2]
    · simp [strLeB, hab, asymm hab] at h1

instance : IsTotal Str strLe := ⟨strLeB_total⟩

instance : IsTrans Str strLe := ⟨strLeB_trans⟩

/-! Claims. -/

/-- C1 counterexample: the claim says a segment whose lower-cased extension
is in the Extension Filter Table never appears in the result of
`extract_paths`, even as an intermediate (parent) component.  For the URL
`https://example.com/logo.png/x`, the intermediate component `logo.png` is
re-added unconditionally by the parent-directory loop even though its
extension `png` is in the table, so it does appear in the result. -/
theorem C1_counterexample :
    "logo.png".toList ∈ extract_paths ["https://example.com/logo.png/x".toList] ∧
    segExt "logo.png".toList ∈ filtered_extensions := by decide

/-- C1 (amended): the extension filter is only effective for the final
path component: every segment in the result of `extract_paths` that the
keep/drop predicate rejects (file-like with an extension in the table)
occurs as a non-final component of the parsed path of some input URL,
where the parent-directory loop adds it unconditionally. -/
theorem C1_ok {urls : List Str} {s : Str} (h : s ∈ extract_paths urls)
    (hdrop : segKeep s = false) :
    ∃ url, url ∈ urls ∧ ∃ r p, stripScheme url = some r ∧
      urlparsePath r = some p ∧ s ∈ (pathParts p).dropLast := by
  obtain ⟨url, hurl, hs⟩ := mem_extract_paths.mp h
  refine ⟨url, hurl, ?_⟩
  cases hr : stripScheme url with
  | none => rw [urlSegments_eq_nil_of_stripScheme_none hr] at hs; simp at hs
  | some r =>
    cases hp : urlparsePath r with
    | none => rw [urlSegments_eq_nil_of_parse_none hr hp] at hs; simp at hs
    | some p =>
      refine ⟨r, p, rfl, hp, ?_⟩
      rw [urlSegments_eq_parts hr hp] at hs
      rcases List.mem_append.mp hs with h1 | h1
      · have hkeep := (List.mem_filter.mp h1).2
        rw [hdrop] at hkeep
        cases hkeep
      · exact h1

/-- C1 witness: the amended theorem applied to the counterexample URL. -/
theorem C1_witness :
    ("logo.png".toList ∈ extract_paths ["https://example.com/logo.png/x".toList] ∧
      segKeep "logo.png".toList = false) ∧
    (∃ url, url ∈ ["https://example.com/logo.png/x".toList] ∧ ∃ r p,
      stripScheme url = some r ∧ urlparsePath r = some p ∧
      "logo.png".toList ∈ (pathParts p).dropLast) :=
  ⟨⟨by decide, by decide⟩,
    @C1_ok ["https://example.com/logo.png/x".toList] "logo.png".toList
      (by decide) (by decide)⟩

/-- C2: for every collection of kept segments (the result of
`extract_paths` on any URL list), `save_dictionary` produces exactly the
deduplicated segments in ascending order, and re-reading the written file
and splitting it by line reproduces exactly that list: no line is empty,
no line is duplicated, and every adjacent pair is strictly ascending in
the by-codepoint order. -/
theorem C2_ok (urls : List Str) :
    readLines (writeLines (save_dictionary (extract_paths urls))) =
      save_dictionary (extract_paths urls) ∧
    (∀ s, s ∈ save_dictionary (extract_paths urls) ↔ s ∈ extract_paths urls) ∧
    (save_dictionary (extract_paths urls)).Nodup ∧
    (∀ s ∈ save_dictionary (extract_paths urls), s ≠ []) ∧
    List.Pairwise (fun a b => strLe a b ∧ a ≠ b)
      (save_dictionary (extract_paths urls)) := by
  have hperm : List.Perm (save_dictionary (extract_paths urls))
      ((extract_paths urls).dedup) :=
    List.perm_insertionSort _ _
  have hmem : ∀ s, s ∈ save_dictionary (extract_paths urls) ↔
      s ∈ extract_paths urls :=
    fun s => hperm.mem_iff.trans List.mem_dedup
  have hnodup : (save_dictionary (extract_paths urls)).Nodup :=
    hperm.symm.nodup (List.nodup_dedup _)
  have hsorted : List.Sorted strLe (save_dictionary (extract_paths urls)) :=
    List.sorted_insertionSort strLe _
  have hne : ∀ s ∈ save_dictionary (extract_paths urls), s ≠ [] := by
    intro s hs
    obtain ⟨url, _, hseg⟩ := mem_extract_paths.mp ((hmem s).mp hs)
    obtain ⟨r, p, _, _, hpp⟩ := mem_parts_of_mem_urlSegments hseg
    exact (mem_pathParts_props hpp).1
  have hnl : ∀ w ∈ save_dictionary (extract_paths urls), ('\n' : Char) ∉ w := by
    intro w hw
    obtain ⟨url, _, hseg⟩ := mem_extract_paths.mp ((hmem w).mp hw)
    exact nl_not_mem_of_mem_urlSegments hseg
  exact ⟨readLines_writeLines _ hnl, hmem, hnodup, hne, hsorted.and hnodup⟩

/-- C3: the build verdict is success exactly when the merged URL set is
non-empty, the extracted segment set is non-empty and the write succeeds;
and when the merged URL set is empty nothing is written. -/
theorem C3_ok (g u : List Str) (w : Bool) :
    ((build_dictionary g u w).1 = true ↔
      (merge_urls g u ≠ [] ∧ extract_paths (merge_urls g u) ≠ [] ∧ w = true)) ∧
    (merge_urls g u = [] → (build_dictionary g u w).2 = none) := by
  constructor
  · by_cases h1 : merge_urls g u = []
    · simp [build_dictionary, h1]
    · by_cases h2 : extract_paths (merge_urls g u) = []
      · simp [build_dictionary, h1, h2]
      · cases w <;> simp [build_dictionary, h1, h2]
  · intro h1
    simp [build_dictionary, h1]

/-- C4: the URL Merger returns the exact set union of the two input lists
under exact string equality: no duplicates, size at most the sum of the
input lengths, and membership exactly when the string occurs in at least
one input. -/
theorem C4_ok (a b : List Str) :
    (merge_urls a b).Nodup ∧
    (merge_urls a b).length ≤ a.length + b.length ∧
    (∀ s, s ∈ merge_urls a b ↔ s ∈ a ∨ s ∈ b) := by
  refine ⟨List.nodup_dedup _, ?_, fun s => ?_⟩
  · calc (merge_urls a b).length ≤ (a ++ b).length :=
          (List.dedup_sublist _).length_le
      _ = a.length + b.length := List.length_append a b
  · simp [merge_urls, List.mem_dedup]

/-- C5: every string returned by `extract_paths` is non-empty and contains
no slash. -/
theorem C5_ok {urls : List Str} {s : Str} (h : s ∈ extract_paths urls) :
    s ≠ [] ∧ ('/' : Char) ∉ s := by
  obtain ⟨url, _, hs⟩ := mem_extract_paths.mp h
  obtain ⟨r, p, _, _, hpp⟩ := mem_parts_of_mem_urlSegments hs
  exact mem_pathParts_props hpp

/-- C5 witness: the theorem applied to a concrete member of a concrete
`extract_paths` result. -/
theorem C5_witness :
    ("assets".toList ∈ extract_paths ["https://example.com/assets/logo.png".toList]) ∧
    ("assets".toList ≠ [] ∧ ('/' : Char) ∉ "assets".toList) :=
  ⟨by decide,
    @C5_ok ["https://example.com/assets/logo.png".toList] "assets".toList
      (by decide)⟩

/-- C6: a URL that does not begin with `http://` or `https://`, or whose
parsed path component is empty or `/`, contributes nothing to the result
of `extract_paths`. -/
theorem C6_ok (url : Str) (rest : List Str)
    (h : stripScheme url = none ∨ parsedPath url = some [] ∨
      parsedPath url = some "/".toList) :
    extract_paths (url :: rest) = extract_paths rest := by
  have hnil : urlSegments url = [] := by
    rcases h with h | h | h
    · exact urlSegments_eq_nil_of_stripScheme_none h
    · cases hr : stripScheme url with
      | none => exact urlSegments_eq_nil_of_stripScheme_none hr
      | some r =>
        simp only [parsedPath, hr] at h
        exact urlSegments_eq_nil_of_path_trivial hr h (Or.inl rfl)
    · cases hr : stripScheme url with
      | none => exact urlSegments_eq_nil_of_stripScheme_none hr
      | some r =>
        simp only [parsedPath, hr] at h
        exact urlSegments_eq_nil_of_path_trivial hr h (Or.inr rfl)
  simp [extract_paths, hnil]

/-- C6 witness: a scheme-less URL contributes nothing next to a normal
one. -/
theorem C6_witness :
    (stripScheme "ftp://x/a".toList = none ∨
      parsedPath "ftp://x/a".toList = some [] ∨
      parsedPath "ftp://x/a".toList = some "/".toList) ∧
    extract_paths ["ftp://x/a".toList, "https://e.com/a".toList] =
      extract_paths ["https://e.com/a".toList] :=
  ⟨Or.inl (by decide), C6_ok _ _ (Or.inl (by decide))⟩

/-- C7: for the single URL `https://example.com/assets/logo.png` the
result is exactly the set containing `assets`; `assets` passes the filter
and `logo.png` is dropped because `png` is in the table. -/
theorem C7_ok :
    extract_paths ["https://example.com/assets/logo.png".toList] =
      ["assets".toList] ∧
    segKeep "assets".toList = true ∧
    segKeep "logo.png".toList = false ∧
    "png".toList ∈ filtered_extensions := by decide

/-- C8: the Segment Filter is a pure predicate and filtering a segment set
twice yields the same kept set as filtering it once. -/
theorem C8_ok (l : List Str) :
    filterSegs (filterSegs l) = filterSegs l := by
  simp [filterSegs, List.filter_filter]

/-- C9: a URL whose path parsing raises (here: the `Invalid IPv6 URL`
`ValueError`) is skipped and the remaining URLs of the batch are processed
exactly as if the malformed URL were absent. -/
theorem C9_ok (pre post : List Str) (url r : Str)
    (hr : stripScheme url = some r) (hfail : urlparsePath r = none) :
    extract_paths (pre ++ url :: post) = extract_paths (pre ++ post) := by
  have hnil : urlSegments url = [] := urlSegments_eq_nil_of_parse_none hr hfail
  simp [extract_paths, hnil]

/-- C9 witness: a URL with an unbalanced bracket in its netloc is skipped
between two well-formed URLs. -/
theorem C9_witness :
    (stripScheme "https://[bad/z".toList = some "[bad/z".toList ∧
      urlparsePath "[bad/z".toList = none) ∧
    extract_paths ["https://a.com/x".toList, "https://[bad/z".toList,
        "https://b.com/y".toList] =
      extract_paths ["https://a.com/x".toList, "https://b.com/y".toList] :=
  ⟨⟨by decide, by decide⟩,
    C9_ok ["https://a.com/x".toList] ["https://b.com/y".toList]
      "https://[bad/z".toList "[bad/z".toList (by decide) (by decide)⟩

/-- C10: for a URL passing the scheme guard whose parsed path has at least
two non-empty components, every component except the last is in the result
of `extract_paths` unconditionally, and membership in the result for the
single URL is exactly: passing the keep/drop filter, or being a non-final
component. -/
theorem C10_ok (urls : List Str) (url r p : Str) (hmem : url ∈ urls)
    (hr : stripScheme url = some r) (hp : urlparsePath r = some p)
    (_hlen : 2 ≤ (pathParts p).length) :
    (∀ s ∈ (pathParts p).dropLast, s ∈ extract_paths urls) ∧
    (∀ s, s ∈ extract_paths [url] ↔
      ((s ∈ pathParts p ∧ segKeep s = true) ∨ s ∈ (pathParts p).dropLast)) := by
  have hseg := urlSegments_eq_parts hr hp
  constructor
  · intro s hs
    exact mem_extract_paths.mpr ⟨url, hmem, by
      rw [hseg]; exact List.mem_append_right _ hs⟩
  · intro s
    rw [mem_extract_paths]
    constructor
    · rintro ⟨u, hu, hsu⟩
      have hu' : u = url := by simpa using hu
      subst hu'
      rw [hseg] at hsu
      rcases List.mem_append.mp hsu with h | h
      · exact Or.inl ⟨List.mem_of_mem_filter h, (List.mem_filter.mp h).2⟩
      · exact Or.inr h
    · rintro (⟨h1, h2⟩ | h1)
      · exact ⟨url, by simp, by
          rw [hseg]; exact List.mem_append_left _ (List.mem_filter.mpr ⟨h1, h2⟩)⟩
      · exact ⟨url, by simp, by rw [hseg]; exact List.mem_append_right _ h1⟩

/-- C10 witness: a URL whose two components are both file-like with a
filtered extension; the first survives, the final one is dropped. -/
theorem C10_witness :
    ("https://e.com/a.png/b.png".toList ∈ ["https://e.com/a.png/b.png".toList] ∧
      stripScheme "https://e.com/a.png/b.png".toList =
        some "e.com/a.png/b.png".toList ∧
      urlparsePath "e.com/a.png/b.png".toList = some "/a.png/b.png".toList ∧
      2 ≤ (pathParts "/a.png/b.png".toList).length) ∧
    ((∀ s ∈ (pathParts "/a.png/b.png".toList).dropLast,
        s ∈ extract_paths ["https://e.com/a.png/b.png".toList]) ∧
      (∀ s, s ∈ extract_paths ["https://e.com/a.png/b.png".toList] ↔
        ((s ∈ pathParts "/a.png/b.png".toList ∧ segKeep s = true) ∨
          s ∈ (pathParts "/a.png/b.png".toList).dropLast))) :=
  ⟨⟨by decide, by decide, by decide, by decide⟩,
    C10_ok ["https://e.com/a.png/b.png".toList]
      "https://e.com/a.png/b.png".toList "e.com/a.png/b.png".toList
      "/a.png/b.png".toList (by decide) (by decide) (by decide) (by decide)⟩

end MagicDict
